import Mathlib

/-!
Verification of the compliance-engine specification for the safety-inspection
protocol API (`src/routes/protocolRoutes.ts`, `src/routes/hazardZoneRoutes.ts`).

The repository's route layer (zod request schemas, router wiring, auth
middleware) is embedded directly from the source. The compliance core
(Window Calculator, Log Validator, Compliance Evaluator, Protocol Aggregator)
is not present under `src/` — only its HTTP callers are — so those components
are modelled from the specification's words (each such definition carries a
`Modelled from the spec:` doc comment).

Local civil time is represented structurally: a `Date` is a proleptic-Gregorian
calendar date (year, month, day) and an `Instant` is a date plus a
nanosecond-of-day. Comparison is lexicographic; `dateToDays` linearises valid
dates into a day count, which is the workhorse for the window proofs.
-/

/-! ### Calendar basics -/

/-- Proleptic-Gregorian leap-year rule. -/
def isLeap (y : Int) : Bool :=
  decide ((y % 4 = 0 ∧ ¬ y % 100 = 0) ∨ y % 400 = 0)

/-- Number of days in month `m` (1–12) of year `y`; 0 for out-of-range months. -/
def daysInMonth (y : Int) (m : Nat) : Nat :=
  match m with
  | 1 => 31
  | 2 => if isLeap y then 29 else 28
  | 3 => 31
  | 4 => 30
  | 5 => 31
  | 6 => 30
  | 7 => 31
  | 8 => 31
  | 9 => 30
  | 10 => 31
  | 11 => 30
  | 12 => 31
  | _ => 0

/-- Days in year 0, year 1, …, year `y − 1` combined: the day number of
`y`-01-01 counted from 0000-01-01 (negative years extend the pattern). -/
def daysBeforeYear (y : Int) : Int :=
  365 * y + (y + 3) / 4 - (y + 99) / 100 + (y + 399) / 400

/-- Days of year `y` that precede the first of month `m`. -/
def daysBeforeMonth (y : Int) (m : Nat) : Int :=
  (match m with
   | 1 => 0
   | 2 => 31
   | 3 => 59
   | 4 => 90
   | 5 => 120
   | 6 => 151
   | 7 => 181
   | 8 => 212
   | 9 => 243
   | 10 => 273
   | 11 => 304
   | 12 => 334
   | _ => 0)
  + (if 3 ≤ m ∧ isLeap y then 1 else 0)

/-- A local calendar date (proleptic Gregorian). -/
structure Date where
  y : Int
  m : Nat
  d : Nat
deriving DecidableEq

/-- A date is valid when its month is 1–12 and its day fits the month. -/
def ValidDate (dt : Date) : Prop :=
  1 ≤ dt.m ∧ dt.m ≤ 12 ∧ 1 ≤ dt.d ∧ dt.d ≤ daysInMonth dt.y dt.m

instance (dt : Date) : Decidable (ValidDate dt) := by
  unfold ValidDate; infer_instance

/-- Day number of a date counted from 0000-01-01 (so 1970-01-01 is day 719528). -/
def dateToDays (dt : Date) : Int :=
  daysBeforeYear dt.y + daysBeforeMonth dt.y dt.m + ((dt.d : Int) - 1)

/-- Strict lexicographic order on dates (agrees with chronological order on
valid dates). -/
def Date.lt (a b : Date) : Prop :=
  a.y < b.y ∨ (a.y = b.y ∧ (a.m < b.m ∨ (a.m = b.m ∧ a.d < b.d)))

/-- Non-strict lexicographic order on dates. -/
def Date.le (a b : Date) : Prop := Date.lt a b ∨ a = b

instance (a b : Date) : Decidable (Date.lt a b) := by
  unfold Date.lt; infer_instance

instance (a b : Date) : Decidable (Date.le a b) := by
  unfold Date.le; infer_instance

/-- The calendar successor of a date, rolling over months and years. -/
def nextDay (dt : Date) : Date :=
  if dt.d < daysInMonth dt.y dt.m then ⟨dt.y, dt.m, dt.d + 1⟩
  else if dt.m < 12 then ⟨dt.y, dt.m + 1, 1⟩
  else ⟨dt.y + 1, 1, 1⟩

/-- The calendar predecessor of a date, rolling over months and years. -/
def prevDay (dt : Date) : Date :=
  if 1 < dt.d then ⟨dt.y, dt.m, dt.d - 1⟩
  else if 1 < dt.m then ⟨dt.y, dt.m - 1, daysInMonth dt.y (dt.m - 1)⟩
  else ⟨dt.y - 1, 12, 31⟩

/-! ### Arithmetic facts about the day count -/

theorem daysBeforeYear_succ (y : Int) :
    daysBeforeYear (y + 1) = daysBeforeYear y + (if isLeap y then 366 else 365) := by
  simp only [daysBeforeYear, isLeap, decide_eq_true_eq]
  split <;> omega

theorem daysInMonth_pos (y : Int) (m : Nat) (h1 : 1 ≤ m) (h12 : m ≤ 12) :
    1 ≤ daysInMonth y m := by
  interval_cases m <;> simp [daysInMonth] <;> split <;> omega

/-- Month-to-month step of the cumulative day count within a year. -/
theorem daysBeforeMonth_succ (y : Int) (m : Nat) (h1 : 1 ≤ m) (h11 : m ≤ 11) :
    daysBeforeMonth y (m + 1) = daysBeforeMonth y m + (daysInMonth y m : Int) := by
  interval_cases m <;>
    by_cases hL : isLeap y = true <;>
      simp [daysBeforeMonth, daysInMonth, hL] <;> omega

/-- Day-of-year bounds: within a valid date, the in-year offset lies in
`[0, yearLength)`. -/
theorem dayOfYear_bounds (y : Int) (m d : Nat)
    (hm1 : 1 ≤ m) (hm12 : m ≤ 12) (hd1 : 1 ≤ d) (hdm : d ≤ daysInMonth y m) :
    0 ≤ daysBeforeMonth y m + ((d : Int) - 1) ∧
    daysBeforeMonth y m + ((d : Int) - 1) < (if isLeap y then 366 else 365) := by
  interval_cases m <;>
    by_cases hL : isLeap y = true <;>
      simp [daysBeforeMonth, daysInMonth, hL] at hdm ⊢ <;> omega


theorem validDate_mk (y : Int) (m d : Nat) :
    ValidDate ⟨y, m, d⟩ ↔ 1 ≤ m ∧ m ≤ 12 ∧ 1 ≤ d ∧ d ≤ daysInMonth y m := Iff.rfl

theorem dateToDays_mk (y : Int) (m d : Nat) :
    dateToDays ⟨y, m, d⟩ = daysBeforeYear y + daysBeforeMonth y m + ((d : Int) - 1) := rfl

theorem date_lt_mk (y y' : Int) (m m' d d' : Nat) :
    Date.lt ⟨y, m, d⟩ ⟨y', m', d'⟩ ↔
      (y < y' ∨ (y = y' ∧ (m < m' ∨ (m = m' ∧ d < d')))) := Iff.rfl

theorem daysBeforeMonth_le (y : Int) (m m' : Nat)
    (h1 : 1 ≤ m) (h : m < m') (h12 : m' ≤ 12) :
    daysBeforeMonth y m + (daysInMonth y m : Int) ≤ daysBeforeMonth y m' := by
  have main : ∀ n, m + 1 ≤ n → n ≤ 12 →
      daysBeforeMonth y m + (daysInMonth y m : Int) ≤ daysBeforeMonth y n := by
    intro n hn
    induction n, hn using Nat.le_induction with
    | base =>
      intro _
      rw [daysBeforeMonth_succ y m h1 (by omega)]
    | succ n hn ih =>
      intro hn12
      have hih := ih (by omega)
      have hstep := daysBeforeMonth_succ y n (by omega) (by omega)
      have hpos : (0 : Int) ≤ (daysInMonth y n : Int) := by positivity
      omega
  exact main m' (by omega) h12

theorem daysBeforeYear_le (y y' : Int) (h : y < y') :
    daysBeforeYear y + (if isLeap y then 366 else 365) ≤ daysBeforeYear y' := by
  have main : ∀ n, y + 1 ≤ n →
      daysBeforeYear y + (if isLeap y then 366 else 365) ≤ daysBeforeYear n := by
    intro n hn
    refine Int.le_induction
      (P := fun k => daysBeforeYear y + (if isLeap y then 366 else 365) ≤ daysBeforeYear k)
      ?_ ?_ n hn
    · show daysBeforeYear y + (if isLeap y then 366 else 365) ≤ daysBeforeYear (y + 1)
      rw [daysBeforeYear_succ]
    · intro k hk ih
      have ih2 : daysBeforeYear y + (if isLeap y then 366 else 365) ≤ daysBeforeYear k := ih
      show daysBeforeYear y + (if isLeap y then 366 else 365) ≤ daysBeforeYear (k + 1)
      have hstep := daysBeforeYear_succ k
      by_cases hLy : isLeap y = true <;> by_cases hLk : isLeap k = true <;>
        simp [hLy, hLk] at ih2 hstep ⊢ <;> omega
  exact main y' (by omega)

theorem nextDay_valid_toDays (dt : Date) (h : ValidDate dt) :
    ValidDate (nextDay dt) ∧ dateToDays (nextDay dt) = dateToDays dt + 1 := by
  obtain ⟨y, m, d⟩ := dt
  rw [validDate_mk] at h
  obtain ⟨hm1, hm12, hd1, hdm⟩ := h
  simp only [nextDay]
  split
  · rename_i hlt
    constructor
    · rw [validDate_mk]
      exact ⟨hm1, hm12, by omega, by omega⟩
    · rw [dateToDays_mk, dateToDays_mk]
      push_cast
      omega
  · rename_i hge
    split
    · rename_i hmlt
      constructor
      · rw [validDate_mk]
        exact ⟨by omega, by omega, le_refl 1, daysInMonth_pos y (m + 1) (by omega) (by omega)⟩
      · rw [dateToDays_mk, dateToDays_mk, daysBeforeMonth_succ y m hm1 (by omega)]
        push_cast
        omega
    · rename_i hmge
      have hm : m = 12 := by omega
      subst hm
      simp only [daysInMonth] at hdm hge
      have hd : d = 31 := by omega
      subst hd
      constructor
      · rw [validDate_mk]
        exact ⟨by omega, by omega, by omega, by simp [daysInMonth]⟩
      · rw [dateToDays_mk, dateToDays_mk, daysBeforeYear_succ]
        simp only [daysBeforeMonth]
        by_cases hL : isLeap y = true <;> simp [hL] <;> omega

theorem prevDay_valid_toDays (dt : Date) (h : ValidDate dt) :
    ValidDate (prevDay dt) ∧ dateToDays (prevDay dt) = dateToDays dt - 1 := by
  obtain ⟨y, m, d⟩ := dt
  rw [validDate_mk] at h
  obtain ⟨hm1, hm12, hd1, hdm⟩ := h
  simp only [prevDay]
  split
  · rename_i hlt
    constructor
    · rw [validDate_mk]
      exact ⟨hm1, hm12, by omega, by omega⟩
    · rw [dateToDays_mk, dateToDays_mk]
      push_cast
      omega
  · rename_i hge
    split
    · rename_i hmlt
      constructor
      · rw [validDate_mk]
        exact ⟨by omega, by omega, daysInMonth_pos y (m - 1) (by omega) (by omega), le_refl _⟩
      · rw [dateToDays_mk, dateToDays_mk]
        have hstep := daysBeforeMonth_succ y (m - 1) (by omega) (by omega)
        have hm' : m - 1 + 1 = m := by omega
        rw [hm'] at hstep
        push_cast
        omega
    · rename_i hmge
      have hm : m = 1 := by omega
      have hd : d = 1 := by omega
      subst hm
      subst hd
      constructor
      · rw [validDate_mk]
        exact ⟨by omega, by omega, by omega, by simp [daysInMonth]⟩
      · rw [dateToDays_mk, dateToDays_mk]
        have hstep := daysBeforeYear_succ (y - 1)
        have hy : y - 1 + 1 = y := by omega
        rw [hy] at hstep
        simp only [daysBeforeMonth]
        by_cases hL : isLeap (y - 1) = true <;> simp [hL] at hstep ⊢ <;> omega

theorem dateToDays_lt (a b : Date) (ha : ValidDate a) (hb : ValidDate b)
    (hab : Date.lt a b) : dateToDays a < dateToDays b := by
  obtain ⟨y, m, d⟩ := a
  obtain ⟨y', m', d'⟩ := b
  rw [validDate_mk] at ha hb
  obtain ⟨hm1, hm12, hd1, hdm⟩ := ha
  obtain ⟨hm1', hm12', hd1', hdm'⟩ := hb
  rw [date_lt_mk] at hab
  rw [dateToDays_mk, dateToDays_mk]
  rcases hab with hy | ⟨hyy, hmm⟩
  · have h1 := dayOfYear_bounds y m d hm1 hm12 hd1 hdm
    have h2 := dayOfYear_bounds y' m' d' hm1' hm12' hd1' hdm'
    have h3 := daysBeforeYear_le y y' hy
    by_cases hL : isLeap y = true <;> simp [hL] at h1 h3 <;> omega
  · subst hyy
    rcases hmm with hm | ⟨hmeq, hd⟩
    · have key := daysBeforeMonth_le y m m' hm1 hm hm12'
      omega
    · subst hmeq
      omega

theorem date_trichotomy (a b : Date) : Date.lt a b ∨ a = b ∨ Date.lt b a := by
  obtain ⟨y, m, d⟩ := a
  obtain ⟨y', m', d'⟩ := b
  simp only [date_lt_mk, Date.mk.injEq]
  omega

theorem dateToDays_inj (a b : Date) (ha : ValidDate a) (hb : ValidDate b)
    (h : dateToDays a = dateToDays b) : a = b := by
  rcases date_trichotomy a b with h1 | h1 | h1
  · have := dateToDays_lt a b ha hb h1
    omega
  · exact h1
  · have := dateToDays_lt b a hb ha h1
    omega

theorem dateToDays_le (a b : Date) (ha : ValidDate a) (hb : ValidDate b)
    (h : Date.le a b) : dateToDays a ≤ dateToDays b := by
  rcases h with h | h
  · exact le_of_lt (dateToDays_lt a b ha hb h)
  · subst h
    exact le_refl _

theorem date_lt_of_toDays_lt (a b : Date) (ha : ValidDate a) (hb : ValidDate b)
    (h : dateToDays a < dateToDays b) : Date.lt a b := by
  rcases date_trichotomy a b with h1 | h1 | h1
  · exact h1
  · subst h1
    omega
  · have := dateToDays_lt b a hb ha h1
    omega

theorem date_between (a e : Date) (ha : ValidDate a) (he : ValidDate e)
    (h1 : Date.le a e) (h2 : Date.lt e (nextDay a)) : e = a := by
  have hn := nextDay_valid_toDays a ha
  have l1 := dateToDays_le a e ha he h1
  have l2 := dateToDays_lt e (nextDay a) he hn.1 h2
  exact dateToDays_inj e a he ha (by omega)

theorem prevDay_nextDay (dt : Date) (h : ValidDate dt) :
    prevDay (nextDay dt) = dt := by
  have hn := nextDay_valid_toDays dt h
  have hp := prevDay_valid_toDays (nextDay dt) hn.1
  exact dateToDays_inj _ _ hp.1 h (by omega)

theorem prevDay_iter_valid_toDays (k : Nat) (dt : Date) (h : ValidDate dt) :
    ValidDate (prevDay^[k] dt) ∧ dateToDays (prevDay^[k] dt) = dateToDays dt - k := by
  induction k with
  | zero =>
    rw [Function.iterate_zero_apply]
    exact ⟨h, by push_cast; ring⟩
  | succ n ih =>
    rw [Function.iterate_succ_apply']
    have hp := prevDay_valid_toDays _ ih.1
    refine ⟨hp.1, ?_⟩
    rw [hp.2, ih.2]
    push_cast
    ring

theorem nextDay_iter_valid_toDays (k : Nat) (dt : Date) (h : ValidDate dt) :
    ValidDate (nextDay^[k] dt) ∧ dateToDays (nextDay^[k] dt) = dateToDays dt + k := by
  induction k with
  | zero =>
    rw [Function.iterate_zero_apply]
    exact ⟨h, by push_cast; ring⟩
  | succ n ih =>
    rw [Function.iterate_succ_apply']
    have hp := nextDay_valid_toDays _ ih.1
    refine ⟨hp.1, ?_⟩
    rw [hp.2, ih.2]
    push_cast
    ring

/-! ### Instants and the instant order -/

/-- Nanoseconds in a calendar day. -/
def nsPerDay : Nat := 86400000000000

/-- Nanoseconds in an hour. -/
def nsPerHour : Nat := 3600000000000

/-- A local instant: a calendar date plus a nanosecond-of-day. -/
structure Instant where
  date : Date
  nano : Nat
deriving DecidableEq

/-- An instant is valid when its date is valid and its nanosecond-of-day is in
range. -/
def ValidInstant (t : Instant) : Prop := ValidDate t.date ∧ t.nano < nsPerDay

instance (t : Instant) : Decidable (ValidInstant t) := by
  unfold ValidInstant; infer_instance

/-- Strict order on instants: date first, then nanosecond-of-day. -/
def instLt (a b : Instant) : Prop :=
  Date.lt a.date b.date ∨ (a.date = b.date ∧ a.nano < b.nano)

/-- Non-strict order on instants. -/
def instLe (a b : Instant) : Prop := instLt a b ∨ a = b

instance (a b : Instant) : Decidable (instLt a b) := by
  unfold instLt; infer_instance

instance (a b : Instant) : Decidable (instLe a b) := by
  unfold instLe; infer_instance

theorem date_lt_irrefl (a : Date) : ¬ Date.lt a a := by
  obtain ⟨y, m, d⟩ := a
  simp only [date_lt_mk]
  omega

theorem date_lt_trans (a b c : Date) (h1 : Date.lt a b) (h2 : Date.lt b c) :
    Date.lt a c := by
  obtain ⟨y1, m1, d1⟩ := a
  obtain ⟨y2, m2, d2⟩ := b
  obtain ⟨y3, m3, d3⟩ := c
  simp only [date_lt_mk] at h1 h2 ⊢
  omega

theorem instLt_irrefl (a : Instant) : ¬ instLt a a := by
  intro h
  rcases h with h | ⟨_, h⟩
  · exact date_lt_irrefl _ h
  · omega

theorem instLt_trans (a b c : Instant) (h1 : instLt a b) (h2 : instLt b c) :
    instLt a c := by
  rcases h1 with h1 | ⟨h1, h1n⟩ <;> rcases h2 with h2 | ⟨h2, h2n⟩
  · exact Or.inl (date_lt_trans _ _ _ h1 h2)
  · exact Or.inl (h2 ▸ h1)
  · exact Or.inl (h1 ▸ h2)
  · exact Or.inr ⟨h1.trans h2, by omega⟩

theorem instLe_lt_trans (a b c : Instant) (h1 : instLe a b) (h2 : instLt b c) :
    instLt a c := by
  rcases h1 with h1 | h1
  · exact instLt_trans a b c h1 h2
  · exact h1 ▸ h2

theorem instLe_of_date_eq (a b : Instant) (hd : a.date = b.date)
    (hn : a.nano ≤ b.nano) : instLe a b := by
  rcases Nat.lt_or_ge a.nano b.nano with h | h
  · exact Or.inl (Or.inr ⟨hd, h⟩)
  · have : a.nano = b.nano := by omega
    obtain ⟨ad, an⟩ := a
    obtain ⟨bd, bn⟩ := b
    simp only at hd this
    subst hd
    subst this
    exact Or.inr rfl

theorem instLe_start_zero (D : Date) (u : Instant) (h : instLe ⟨D, 0⟩ u) :
    Date.le D u.date := by
  rcases h with h | h
  · rcases h with h | ⟨h, _⟩
    · exact Or.inl h
    · exact Or.inr h
  · rw [← h]
    exact Or.inr rfl

theorem instLt_end_zero (u : Instant) (E : Date) (h : instLt u ⟨E, 0⟩) :
    Date.lt u.date E := by
  rcases h with h | ⟨_, h⟩
  · exact h
  · have hz : u.nano < 0 := h
    omega

/-! ### Frequencies and the Window Calculator -/

/-- The protocol recurrence frequencies of the data model (§3):
`DAILY, WEEKLY, MONTHLY, SHIFT_START, SHIFT_END`. -/
inductive Frequency where
  | DAILY
  | WEEKLY
  | MONTHLY
  | SHIFT_START
  | SHIFT_END
deriving DecidableEq

/-- A half-open recurrence window `[wStart, wEnd)`. -/
structure Window where
  wStart : Instant
  wEnd : Instant
deriving DecidableEq

/-- Monday-based weekday index of a date (Monday = 0, …, Sunday = 6); anchored
so that day 719528 (1970-01-01) is a Thursday (index 3). -/
def weekdayIdx (dt : Date) : Nat := ((dateToDays dt + 5) % 7).toNat

/-- The Monday that starts the calendar week containing `dt`. -/
def mondayOf (dt : Date) : Date := prevDay^[weekdayIdx dt] dt

/-- The first day of the calendar month after the one containing `dt`. -/
def firstOfNextMonth (dt : Date) : Date :=
  if dt.m < 12 then ⟨dt.y, dt.m + 1, 1⟩ else ⟨dt.y + 1, 1, 1⟩

/-- Modelled from the spec: the Window Calculator (§4.1),
`windowFor(frequency, referenceInstant, shiftBoundaryHour)`, absent from
`src/`. `DAILY` is the calendar day containing the reference instant,
`WEEKLY` the Monday-to-Monday calendar week, `MONTHLY` the calendar month,
and `SHIFT_START`/`SHIFT_END` the day-long window cut at the configured
shift-boundary hour instead of midnight. All intervals are half-open. -/
def windowFor (f : Frequency) (shiftBoundaryHour : Nat) (t : Instant) : Window :=
  match f with
  | .DAILY => ⟨⟨t.date, 0⟩, ⟨nextDay t.date, 0⟩⟩
  | .WEEKLY => ⟨⟨mondayOf t.date, 0⟩, ⟨nextDay^[7] (mondayOf t.date), 0⟩⟩
  | .MONTHLY => ⟨⟨⟨t.date.y, t.date.m, 1⟩, 0⟩, ⟨firstOfNextMonth t.date, 0⟩⟩
  | .SHIFT_START | .SHIFT_END =>
    let boundary := shiftBoundaryHour * nsPerHour
    if boundary ≤ t.nano then ⟨⟨t.date, boundary⟩, ⟨nextDay t.date, boundary⟩⟩
    else ⟨⟨prevDay t.date, boundary⟩, ⟨t.date, boundary⟩⟩

theorem weekdayIdx_lt (dt : Date) : weekdayIdx dt < 7 := by
  simp only [weekdayIdx]
  omega

theorem mondayOf_valid_toDays (dt : Date) (h : ValidDate dt) :
    ValidDate (mondayOf dt) ∧
    dateToDays (mondayOf dt) = dateToDays dt - ((dateToDays dt + 5) % 7) := by
  have hi := prevDay_iter_valid_toDays (weekdayIdx dt) dt h
  refine ⟨hi.1, ?_⟩
  simp only [mondayOf]
  rw [hi.2]
  simp only [weekdayIdx]
  omega

/-- The Monday of a week is determined by any day of that week. -/
theorem mondayOf_week (a b : Date) (ha : ValidDate a) (hb : ValidDate b)
    (h1 : dateToDays (mondayOf a) ≤ dateToDays b)
    (h2 : dateToDays b < dateToDays (mondayOf a) + 7) :
    mondayOf b = mondayOf a := by
  have hma := mondayOf_valid_toDays a ha
  have hmb := mondayOf_valid_toDays b hb
  refine dateToDays_inj _ _ hmb.1 hma.1 ?_
  rw [hmb.2, hma.2]
  rw [hma.2] at h1 h2
  omega

theorem date_le_of_toDays_le (a b : Date) (ha : ValidDate a) (hb : ValidDate b)
    (h : dateToDays a ≤ dateToDays b) : Date.le a b := by
  rcases date_trichotomy a b with h1 | h1 | h1
  · exact Or.inl h1
  · exact Or.inr h1
  · have := dateToDays_lt b a hb ha h1
    omega

theorem instLe_zero_left (D : Date) (u : Instant) (h : Date.le D u.date) :
    instLe ⟨D, 0⟩ u := by
  rcases h with h | h
  · exact Or.inl (Or.inl h)
  · exact instLe_of_date_eq _ _ h (Nat.zero_le _)

theorem validInstant_mk (D : Date) (n : Nat) :
    ValidInstant ⟨D, n⟩ ↔ ValidDate D ∧ n < nsPerDay := Iff.rfl

theorem instLt_mk (a b : Instant) :
    instLt a b ↔ (Date.lt a.date b.date ∨ (a.date = b.date ∧ a.nano < b.nano)) := Iff.rfl

theorem instLt_nano_right (u : Instant) (E : Date) (H : Nat)
    (h : Date.lt u.date E) : instLt u ⟨E, H⟩ := Or.inl h

theorem instLt_same_date (u : Instant) (E : Date) (H : Nat)
    (hd : u.date = E) (hn : u.nano < H) : instLt u ⟨E, H⟩ := Or.inr ⟨hd, hn⟩

theorem instLe_nano_left (D : Date) (H : Nat) (u : Instant)
    (h : Date.lt D u.date) : instLe ⟨D, H⟩ u := Or.inl (Or.inl h)

theorem windowFor_valid (f : Frequency) (h : Nat) (t : Instant)
    (ht : ValidInstant t) (hh : h ≤ 23) :
    ValidInstant (windowFor f h t).wStart ∧ ValidInstant (windowFor f h t).wEnd := by
  obtain ⟨htd, htn⟩ := ht
  have hH : h * nsPerHour < nsPerDay := by
    simp only [nsPerHour, nsPerDay]
    omega
  have hzero : 0 < nsPerDay := by simp [nsPerDay]
  cases f with
  | DAILY =>
    have hn := nextDay_valid_toDays t.date htd
    simp only [windowFor, validInstant_mk]
    exact ⟨⟨htd, hzero⟩, ⟨hn.1, hzero⟩⟩
  | WEEKLY =>
    have hm := mondayOf_valid_toDays t.date htd
    have hn := nextDay_iter_valid_toDays 7 (mondayOf t.date) hm.1
    simp only [windowFor, validInstant_mk]
    exact ⟨⟨hm.1, hzero⟩, ⟨hn.1, hzero⟩⟩
  | MONTHLY =>
    obtain ⟨hm1, hm12, _, _⟩ := htd
    simp only [windowFor, firstOfNextMonth, validInstant_mk, validDate_mk]
    constructor
    · exact ⟨⟨hm1, hm12, le_refl 1, daysInMonth_pos _ _ hm1 hm12⟩, hzero⟩
    · split
      · rename_i hc
        rw [validDate_mk]
        exact ⟨⟨by omega, by omega, le_refl 1, daysInMonth_pos _ _ (by omega) (by omega)⟩, hzero⟩
      · rename_i hc
        rw [validDate_mk]
        exact ⟨⟨by omega, by omega, le_refl 1, daysInMonth_pos _ _ (by omega) (by omega)⟩, hzero⟩
  | SHIFT_START =>
    have hn := nextDay_valid_toDays t.date htd
    have hp := prevDay_valid_toDays t.date htd
    simp only [windowFor]
    split
    · simp only [validInstant_mk]
      exact ⟨⟨htd, hH⟩, ⟨hn.1, hH⟩⟩
    · simp only [validInstant_mk]
      exact ⟨⟨hp.1, hH⟩, ⟨htd, hH⟩⟩
  | SHIFT_END =>
    have hn := nextDay_valid_toDays t.date htd
    have hp := prevDay_valid_toDays t.date htd
    simp only [windowFor]
    split
    · simp only [validInstant_mk]
      exact ⟨⟨htd, hH⟩, ⟨hn.1, hH⟩⟩
    · simp only [validInstant_mk]
      exact ⟨⟨hp.1, hH⟩, ⟨htd, hH⟩⟩

theorem windowFor_mem (f : Frequency) (h : Nat) (t : Instant)
    (ht : ValidInstant t) (hh : h ≤ 23) :
    instLe (windowFor f h t).wStart t ∧ instLt t (windowFor f h t).wEnd := by
  obtain ⟨htd, htn⟩ := ht
  cases f with
  | DAILY =>
    have hn := nextDay_valid_toDays t.date htd
    have h1 : dateToDays t.date < dateToDays (nextDay t.date) := by omega
    have hlt : Date.lt t.date (nextDay t.date) :=
      date_lt_of_toDays_lt t.date (nextDay t.date) htd hn.1 h1
    simp only [windowFor]
    exact ⟨instLe_of_date_eq ⟨t.date, 0⟩ t rfl (Nat.zero_le _),
      instLt_nano_right t (nextDay t.date) 0 hlt⟩
  | WEEKLY =>
    have hm := mondayOf_valid_toDays t.date htd
    have hn := nextDay_iter_valid_toDays 7 (mondayOf t.date) hm.1
    have h1 : dateToDays (mondayOf t.date) ≤ dateToDays t.date := by omega
    have h2 : dateToDays t.date < dateToDays (nextDay^[7] (mondayOf t.date)) := by omega
    have hle : Date.le (mondayOf t.date) t.date :=
      date_le_of_toDays_le (mondayOf t.date) t.date hm.1 htd h1
    have hlt : Date.lt t.date (nextDay^[7] (mondayOf t.date)) :=
      date_lt_of_toDays_lt t.date (nextDay^[7] (mondayOf t.date)) htd hn.1 h2
    simp only [windowFor]
    exact ⟨instLe_zero_left (mondayOf t.date) t hle,
      instLt_nano_right t (nextDay^[7] (mondayOf t.date)) 0 hlt⟩
  | MONTHLY =>
    obtain ⟨⟨y, m, d⟩, n⟩ := t
    rw [validDate_mk] at htd
    have hle : Date.le ⟨y, m, 1⟩ ⟨y, m, d⟩ := by
      simp only [Date.le, date_lt_mk, Date.mk.injEq, true_and, and_true]
      omega
    have hlt : Date.lt ⟨y, m, d⟩ (firstOfNextMonth ⟨y, m, d⟩) := by
      simp only [firstOfNextMonth]
      split
      · simp only [date_lt_mk, true_and, and_true]
        omega
      · simp only [date_lt_mk, true_and, and_true]
        omega
    simp only [windowFor]
    exact ⟨instLe_zero_left ⟨y, m, 1⟩ ⟨⟨y, m, d⟩, n⟩ hle,
      instLt_nano_right ⟨⟨y, m, d⟩, n⟩ (firstOfNextMonth ⟨y, m, d⟩) 0 hlt⟩
  | SHIFT_START =>
    have hn := nextDay_valid_toDays t.date htd
    have hp := prevDay_valid_toDays t.date htd
    have hltn : Date.lt t.date (nextDay t.date) :=
      date_lt_of_toDays_lt t.date (nextDay t.date) htd hn.1 (by omega)
    have hltp : Date.lt (prevDay t.date) t.date :=
      date_lt_of_toDays_lt (prevDay t.date) t.date hp.1 htd (by omega)
    simp only [windowFor]
    split
    · rename_i hb
      exact ⟨instLe_of_date_eq ⟨t.date, h * nsPerHour⟩ t rfl hb,
        instLt_nano_right t (nextDay t.date) (h * nsPerHour) hltn⟩
    · rename_i hb
      exact ⟨instLe_nano_left (prevDay t.date) (h * nsPerHour) t hltp,
        instLt_same_date t t.date (h * nsPerHour) rfl (by omega)⟩
  | SHIFT_END =>
    have hn := nextDay_valid_toDays t.date htd
    have hp := prevDay_valid_toDays t.date htd
    have hltn : Date.lt t.date (nextDay t.date) :=
      date_lt_of_toDays_lt t.date (nextDay t.date) htd hn.1 (by omega)
    have hltp : Date.lt (prevDay t.date) t.date :=
      date_lt_of_toDays_lt (prevDay t.date) t.date hp.1 htd (by omega)
    simp only [windowFor]
    split
    · rename_i hb
      exact ⟨instLe_of_date_eq ⟨t.date, h * nsPerHour⟩ t rfl hb,
        instLt_nano_right t (nextDay t.date) (h * nsPerHour) hltn⟩
    · rename_i hb
      exact ⟨instLe_nano_left (prevDay t.date) (h * nsPerHour) t hltp,
        instLt_same_date t t.date (h * nsPerHour) rfl (by omega)⟩

theorem windowFor_pos (f : Frequency) (h : Nat) (t : Instant)
    (ht : ValidInstant t) (hh : h ≤ 23) :
    instLt (windowFor f h t).wStart (windowFor f h t).wEnd := by
  have hm := windowFor_mem f h t ht hh
  exact instLe_lt_trans _ _ _ hm.1 hm.2

theorem nextDay_prevDay (dt : Date) (h : ValidDate dt) :
    nextDay (prevDay dt) = dt := by
  have hp := prevDay_valid_toDays dt h
  have hn := nextDay_valid_toDays (prevDay dt) hp.1
  exact dateToDays_inj _ _ hn.1 h (by omega)

/-- Inside a shift window `[⟨D, H⟩, ⟨nextDay D, H⟩)`, the shift-window branch
computed from any instant reproduces the window itself. -/
theorem shiftWindow_det (hr : Nat) (D : Date) (u : Instant)
    (hD : ValidDate D) (hu : ValidInstant u)
    (h1 : instLe ⟨D, hr * nsPerHour⟩ u)
    (h2 : instLt u ⟨nextDay D, hr * nsPerHour⟩) :
    (if hr * nsPerHour ≤ u.nano
      then (⟨⟨u.date, hr * nsPerHour⟩, ⟨nextDay u.date, hr * nsPerHour⟩⟩ : Window)
      else ⟨⟨prevDay u.date, hr * nsPerHour⟩, ⟨u.date, hr * nsPerHour⟩⟩)
      = ⟨⟨D, hr * nsPerHour⟩, ⟨nextDay D, hr * nsPerHour⟩⟩ := by
  rcases h1 with h1 | h1
  · rcases h1 with hd | ⟨hd, hn⟩
    · have hDlt : Date.lt D u.date := hd
      rcases h2 with h2 | ⟨h2d, h2n⟩
      · have hbet := date_between D u.date hD hu.1 (Or.inl hDlt) h2
        rw [hbet] at hDlt
        exact absurd hDlt (date_lt_irrefl D)
      · have hud : u.date = nextDay D := h2d
        have hun : u.nano < hr * nsPerHour := h2n
        rw [if_neg (by omega)]
        rw [hud, prevDay_nextDay D hD]
    · have hud2 : u.date = D := hd.symm
      have hun : hr * nsPerHour < u.nano := hn
      rw [if_pos (by omega)]
      rw [hud2]
  · have hud : u.date = D := by rw [← h1]
    have hun : u.nano = hr * nsPerHour := by rw [← h1]
    rw [if_pos (by omega)]
    rw [hud]

/-- Every instant inside a window is assigned that same window by the Window
Calculator: the windows are a partition of the timeline (spec §8, window
containment). -/
theorem windowFor_containment (f : Frequency) (h : Nat) (t u : Instant)
    (ht : ValidInstant t) (hu : ValidInstant u) (hh : h ≤ 23)
    (h1 : instLe (windowFor f h t).wStart u)
    (h2 : instLt u (windowFor f h t).wEnd) :
    windowFor f h u = windowFor f h t := by
  obtain ⟨htd, htn⟩ := ht
  cases f with
  | DAILY =>
    simp only [windowFor] at h1 h2 ⊢
    have hle := instLe_start_zero t.date u h1
    have hlt := instLt_end_zero u (nextDay t.date) h2
    have hud : u.date = t.date := date_between t.date u.date htd hu.1 hle hlt
    rw [hud]
  | WEEKLY =>
    simp only [windowFor] at h1 h2 ⊢
    have hm := mondayOf_valid_toDays t.date htd
    have hn := nextDay_iter_valid_toDays 7 (mondayOf t.date) hm.1
    have hle := instLe_start_zero (mondayOf t.date) u h1
    have hlt := instLt_end_zero u (nextDay^[7] (mondayOf t.date)) h2
    have hdle := dateToDays_le (mondayOf t.date) u.date hm.1 hu.1 hle
    have hdlt := dateToDays_lt u.date (nextDay^[7] (mondayOf t.date)) hu.1 hn.1 hlt
    have hmon : mondayOf u.date = mondayOf t.date := by
      refine mondayOf_week t.date u.date htd hu.1 hdle ?_
      omega
    rw [hmon]
  | MONTHLY =>
    obtain ⟨⟨y, m, d⟩, n⟩ := t
    obtain ⟨⟨y2, m2, d2⟩, n2⟩ := u
    rw [validDate_mk] at htd
    have hv1 : 1 ≤ m2 ∧ m2 ≤ 12 ∧ 1 ≤ d2 ∧ d2 ≤ daysInMonth y2 m2 := hu.1
    simp only [windowFor] at h1 h2 ⊢
    have hle := instLe_start_zero ⟨y, m, 1⟩ ⟨⟨y2, m2, d2⟩, n2⟩ h1
    have hlt := instLt_end_zero ⟨⟨y2, m2, d2⟩, n2⟩ (firstOfNextMonth ⟨y, m, d⟩) h2
    simp only [Date.le, date_lt_mk, Date.mk.injEq, true_and, and_true] at hle
    simp only [firstOfNextMonth] at hlt ⊢
    have hym : y2 = y ∧ m2 = m := by
      by_cases hc : m < 12
      · rw [if_pos hc] at hlt
        simp only [date_lt_mk, true_and, and_true] at hlt
        omega
      · rw [if_neg hc] at hlt
        simp only [date_lt_mk, true_and, and_true] at hlt
        omega
    obtain ⟨hy, hm⟩ := hym
    subst hy
    subst hm
    rfl
  | SHIFT_START =>
    by_cases hc : h * nsPerHour ≤ t.nano
    · simp only [windowFor, if_pos hc] at h1 h2 ⊢
      exact shiftWindow_det h t.date u htd ⟨hu.1, hu.2⟩ h1 h2
    · simp only [windowFor, if_neg hc] at h1 h2 ⊢
      have hp := prevDay_valid_toDays t.date htd
      have hrw : nextDay (prevDay t.date) = t.date := nextDay_prevDay t.date htd
      rw [← hrw] at h2
      have hres := shiftWindow_det h (prevDay t.date) u hp.1 ⟨hu.1, hu.2⟩ h1 h2
      rw [hrw] at hres
      exact hres
  | SHIFT_END =>
    by_cases hc : h * nsPerHour ≤ t.nano
    · simp only [windowFor, if_pos hc] at h1 h2 ⊢
      exact shiftWindow_det h t.date u htd ⟨hu.1, hu.2⟩ h1 h2
    · simp only [windowFor, if_neg hc] at h1 h2 ⊢
      have hp := prevDay_valid_toDays t.date htd
      have hrw : nextDay (prevDay t.date) = t.date := nextDay_prevDay t.date htd
      rw [← hrw] at h2
      have hres := shiftWindow_det h (prevDay t.date) u hp.1 ⟨hu.1, hu.2⟩ h1 h2
      rw [hrw] at hres
      exact hres

/-- The window computed at a window's end instant starts exactly at that
instant: a completion stamped `windowEnd` opens the immediately following
window. -/
theorem windowFor_next_start (f : Frequency) (h : Nat) (t : Instant)
    (ht : ValidInstant t) (hh : h ≤ 23) :
    (windowFor f h ((windowFor f h t).wEnd)).wStart = (windowFor f h t).wEnd := by
  obtain ⟨htd, htn⟩ := ht
  cases f with
  | DAILY =>
    simp only [windowFor]
  | WEEKLY =>
    have hm := mondayOf_valid_toDays t.date htd
    have hn := nextDay_iter_valid_toDays 7 (mondayOf t.date) hm.1
    simp only [windowFor]
    generalize hN : nextDay^[7] (mondayOf t.date) = N at hn ⊢
    have hidx : weekdayIdx N = 0 := by
      simp only [weekdayIdx]
      omega
    have hmon : mondayOf N = N := by
      simp only [mondayOf, hidx, Function.iterate_zero_apply]
    rw [hmon]
  | MONTHLY =>
    simp only [windowFor, firstOfNextMonth]
    split
    · rfl
    · rfl
  | SHIFT_START =>
    by_cases hc : h * nsPerHour ≤ t.nano
    · simp only [windowFor, if_pos hc]
      rw [if_pos (le_refl (h * nsPerHour))]
    · simp only [windowFor, if_neg hc]
      rw [if_pos (le_refl (h * nsPerHour))]
  | SHIFT_END =>
    by_cases hc : h * nsPerHour ≤ t.nano
    · simp only [windowFor, if_pos hc]
      rw [if_pos (le_refl (h * nsPerHour))]
    · simp only [windowFor, if_neg hc]
      rw [if_pos (le_refl (h * nsPerHour))]

/-! ### Data model and the compliance engine -/

/-- Compliance states reported for a protocol at an instant (§4.3, glossary). -/
inductive ComplianceState where
  | COMPLIANT
  | PENDING
  | OVERDUE
  | NOT_YET_DUE
  | INACTIVE
deriving DecidableEq

/-- Protocol record of the data model (§3). -/
structure Protocol where
  id : String
  name : String
  description : Option String
  frequency : Frequency
  targetCount : Rat
  isActive : Bool
  zoneIds : List String
deriving DecidableEq

/-- ComplianceLog record of the data model (§3). -/
structure ComplianceLog where
  id : String
  protocolId : String
  completionDate : Instant
  note : Option String
  createdAt : Instant
deriving DecidableEq

/-- Membership of an instant in a half-open window (upper bound exclusive). -/
def inWindow (w : Window) (i : Instant) : Prop :=
  instLe w.wStart i ∧ instLt i w.wEnd

instance (w : Window) (i : Instant) : Decidable (inWindow w i) := by
  unfold inWindow; infer_instance

/-- Modelled from the spec: step 2 of the Compliance Evaluator (§4.3), absent
from `src/` — the number of logs whose completionDate falls in a window. -/
def countInWindow (logs : List ComplianceLog) (w : Window) : Nat :=
  (logs.filter (fun l => decide (inWindow w l.completionDate))).length

/-- The last instant strictly before `t`, at nanosecond resolution. -/
def previousInstant (t : Instant) : Instant :=
  if t.nano = 0 then ⟨prevDay t.date, nsPerDay - 1⟩ else ⟨t.date, t.nano - 1⟩

/-- Modelled from the spec: the Compliance Evaluator (§4.3),
`evaluate(protocol, logs, referenceInstant) -> ComplianceState`, absent from
`src/`. Inactive protocols report INACTIVE and are excluded from counting; a
current-window count at or above target is COMPLIANT; otherwise a nonzero
current count is PENDING, and with no current completion the state is OVERDUE
exactly when the most recently closed window missed its target. -/
def evaluate (p : Protocol) (logs : List ComplianceLog) (t : Instant)
    (shiftHour : Nat) : ComplianceState :=
  if p.isActive = false then .INACTIVE
  else
    let w := windowFor p.frequency shiftHour t
    let c := countInWindow logs w
    if p.targetCount ≤ (c : Rat) then .COMPLIANT
    else if 0 < c then .PENDING
    else
      let pw := windowFor p.frequency shiftHour (previousInstant w.wStart)
      if (countInWindow logs pw : Rat) < p.targetCount then .OVERDUE else .PENDING

/-- Log rejection reasons (§4.2, §7). -/
inductive LogRejection where
  | FUTURE_DATE
  | TOO_OLD
deriving DecidableEq

/-- Outcome of the Log Validator. -/
inductive ValidateOutcome where
  | ok
  | rejected (reason : LogRejection)
deriving DecidableEq

/-- Modelled from the spec: the Log Validator (§4.2),
`validate(completionDate, now) -> Ok | Rejected(reason)`, absent from `src/`.
Timestamps are nanosecond offsets on a linear timeline. Rejects FUTURE_DATE
when the completion is strictly after `now` plus the clock-skew tolerance
(default 0); rejects TOO_OLD only when a maximum backfill window is
configured (default unbounded, `none`); accepts the boundary case
`completionDate == now`. -/
def validateLog (completionDate now : Int) (skewTolerance : Int)
    (maxBackfill : Option Int) : ValidateOutcome :=
  if now + skewTolerance < completionDate then .rejected .FUTURE_DATE
  else
    match maxBackfill with
    | some b => if completionDate < now - b then .rejected .TOO_OLD else .ok
    | none => .ok

/-- Modelled from the spec: the record store a compliance query reads —
protocols plus the per-protocol append-only log history (§5, §6). -/
structure EngineStore where
  protocols : List Protocol
  logs : List (String × List ComplianceLog)
deriving DecidableEq

/-- Log history the store holds for a protocol id (empty when none). -/
def logsFor (s : EngineStore) (pid : String) : List ComplianceLog :=
  (s.logs.lookup pid).getD []

/-- Modelled from the spec: one evaluation request against the store (§5).
The engine is stateless and side-effect-free, so a query returns the computed
state together with the store it leaves behind — the input store unchanged. -/
def evalQuery (s : EngineStore) (p : Protocol) (t : Instant) (shiftHour : Nat) :
    ComplianceState × EngineStore :=
  (evaluate p (logsFor s p.id) t shiftHour, s)

/-! ### The HTTP validation layer: zod schemas of the route files -/

/-- A JSON value as received by the request-validation middleware. Numbers are
exact rationals, mirroring that a JavaScript number need not be an integer. -/
inductive Json where
  | null
  | bool (b : Bool)
  | num (q : Rat)
  | str (s : String)
  | arr (elems : List Json)
  | obj (fields : List (String × Json))

/-- First binding of a key in a JSON object's field list. -/
def lookupField (fields : List (String × Json)) (k : String) : Option Json :=
  match fields with
  | [] => none
  | (k2, v) :: rest => if k2 = k then some v else lookupField rest k

/-- A required object field validated by `p` (zod: a missing key fails). -/
def reqField (fields : List (String × Json)) (k : String) (p : Json → Bool) : Bool :=
  match lookupField fields k with
  | none => false
  | some v => p v

/-- An optional object field validated by `p` (zod `.optional()`). -/
def optField (fields : List (String × Json)) (k : String) (p : Json → Bool) : Bool :=
  match lookupField fields k with
  | none => true
  | some v => p v

/-- zod `z.string().min(lo).max(hi)`. -/
def isStrLen (lo hi : Nat) : Json → Bool
  | .str s => decide (lo ≤ s.length) && decide (s.length ≤ hi)
  | _ => false

def isStr : Json → Bool
  | .str _ => true
  | _ => false

def isBool : Json → Bool
  | .bool _ => true
  | _ => false

/-- zod `z.number().min(lo)` — any number at or above the bound, with no
integrality requirement. -/
def isNumMin (lo : Rat) : Json → Bool
  | .num q => decide (lo ≤ q)
  | _ => false

/-- zod enum membership for the five frequency literals. -/
def isFrequencyStr (s : String) : Bool :=
  s == "DAILY" || s == "WEEKLY" || s == "MONTHLY" || s == "SHIFT_START" || s == "SHIFT_END"

def isFrequencyJson : Json → Bool
  | .str s => isFrequencyStr s
  | _ => false

def isArrayOf (p : Json → Bool) : Json → Bool
  | .arr xs => xs.all p
  | _ => false

def isHexDigitChar (c : Char) : Bool :=
  c.isDigit || (decide (97 ≤ c.toNat) && decide (c.toNat ≤ 102)) ||
    (decide (65 ≤ c.toNat) && decide (c.toNat ≤ 70))

/-- Split a character list at `-` separators. -/
def splitDash : List Char → List (List Char)
  | [] => [[]]
  | c :: cs =>
    let r := splitDash cs
    if c == '-' then [] :: r
    else
      match r with
      | [] => [[c]]
      | g :: gs => (c :: g) :: gs

/-- zod `z.string().uuid()`: five dash-separated hexadecimal groups of lengths
8, 4, 4, 4 and 12. -/
def isUuid (s : String) : Bool :=
  match splitDash s.toList with
  | [a, b, c, d, e] =>
    a.length == 8 && b.length == 4 && c.length == 4 && d.length == 4 &&
    e.length == 12 && (a ++ b ++ c ++ d ++ e).all isHexDigitChar
  | _ => false

def digitsThenZ : List Char → Bool
  | ['Z'] => true
  | c :: cs => c.isDigit && digitsThenZ cs
  | [] => false

def dtTail : List Char → Bool
  | ['Z'] => true
  | '.' :: c :: cs => c.isDigit && digitsThenZ (c :: cs)
  | _ => false

/-- zod `z.string().datetime()` (default options): an ISO-8601 UTC timestamp
`YYYY-MM-DDTHH:MM:SS(.fraction)?Z`. -/
def isDatetime (s : String) : Bool :=
  match s.toList with
  | y1 :: y2 :: y3 :: y4 :: '-' :: mo1 :: mo2 :: '-' :: d1 :: d2 :: 'T' ::
      h1 :: h2 :: ':' :: mi1 :: mi2 :: ':' :: s1 :: s2 :: rest =>
    y1.isDigit && y2.isDigit && y3.isDigit && y4.isDigit &&
    mo1.isDigit && mo2.isDigit && d1.isDigit && d2.isDigit &&
    h1.isDigit && h2.isDigit && mi1.isDigit && mi2.isDigit &&
    s1.isDigit && s2.isDigit && dtTail rest
  | _ => false

/-- `createProtocolSchema` of `src/routes/protocolRoutes.ts`: body validation
for POST `/api/protocols`. `targetCount` is `z.number().min(1)` and `zoneIds`
is `z.array(z.string())`. -/
def createProtocolSchema : Json → Bool
  | .obj fields =>
    reqField fields "name" (isStrLen 3 200) &&
    optField fields "description" isStr &&
    reqField fields "frequency" isFrequencyJson &&
    reqField fields "targetCount" (isNumMin 1) &&
    optField fields "zoneIds" (isArrayOf isStr)
  | _ => false

/-- `updateProtocolSchema` of `src/routes/protocolRoutes.ts`: every field
optional, `frequency` included. -/
def updateProtocolSchema : Json → Bool
  | .obj fields =>
    optField fields "name" (isStrLen 3 200) &&
    optField fields "description" isStr &&
    optField fields "frequency" isFrequencyJson &&
    optField fields "targetCount" (isNumMin 1) &&
    optField fields "isActive" isBool &&
    optField fields "zoneIds" (isArrayOf isStr)
  | _ => false

def isUuidJson : Json → Bool
  | .str s => isUuid s
  | _ => false

/-- `protocolParamsSchema`: the `:id` path parameter must be a UUID string. -/
def protocolParamsSchema : Json → Bool
  | .obj fields => reqField fields "id" isUuidJson
  | _ => false

/-- `hazardZoneParamsSchema` of `src/routes/hazardZoneRoutes.ts`: the `:id`
path parameter must be a UUID string. -/
def hazardZoneParamsSchema : Json → Bool
  | .obj fields => reqField fields "id" isUuidJson
  | _ => false

def isDatetimeJson : Json → Bool
  | .str s => isDatetime s
  | _ => false

/-- `createComplianceLogSchema` of `src/routes/protocolRoutes.ts`: optional
datetime `completionDate`, optional `note` of at most 500 characters. -/
def createComplianceLogSchema : Json → Bool
  | .obj fields =>
    optField fields "completionDate" isDatetimeJson &&
    optField fields "note" (isStrLen 0 500)
  | _ => false

/-! ### Router wiring and authentication -/

/-- Middleware installed with `router.use`. -/
inductive Middleware where
  | authenticateToken
deriving DecidableEq

/-- One registration on an Express router, in source order. -/
inductive Registration where
  | use (m : Middleware)
  | route (method path : String)
deriving DecidableEq

/-- Registrations of `src/routes/protocolRoutes.ts`, in source order:
`router.use(authenticateToken)` precedes every route registration. -/
def protocolRouterRegs : List Registration :=
  [.use .authenticateToken,
   .route "GET" "/",
   .route "POST" "/",
   .route "GET" "/:id",
   .route "PATCH" "/:id",
   .route "DELETE" "/:id",
   .route "POST" "/:id/compliance-logs",
   .route "GET" "/:id/compliance-logs"]

/-- Registrations of `src/routes/hazardZoneRoutes.ts`, in source order. -/
def hazardZoneRouterRegs : List Registration :=
  [.use .authenticateToken,
   .route "GET" "/",
   .route "POST" "/",
   .route "GET" "/:id",
   .route "PATCH" "/:id",
   .route "DELETE" "/:id"]

/-- Whether a middleware passes a request through: `authenticateToken` answers
an unauthenticated request with 401, stopping the pipeline. -/
def middlewarePasses (m : Middleware) (authenticated : Bool) : Bool :=
  match m with
  | .authenticateToken => authenticated

/-- Express pipeline semantics: the handler registered at position `i` runs
only if every `use`-middleware registered before position `i` passes. -/
def handlerReachable (regs : List Registration) (authenticated : Bool) (i : Nat) : Bool :=
  (regs.take i).all fun r =>
    match r with
    | .use m => middlewarePasses m authenticated
    | .route _ _ => true

/-- Parse a frequency enum literal. -/
def parseFrequency (s : String) : Option Frequency :=
  if s == "DAILY" then some .DAILY
  else if s == "WEEKLY" then some .WEEKLY
  else if s == "MONTHLY" then some .MONTHLY
  else if s == "SHIFT_START" then some .SHIFT_START
  else if s == "SHIFT_END" then some .SHIFT_END
  else none

/-- Modelled from the spec: the update controller behind `router.patch('/:id')`
is not under `src/`; §9 records that "the source schema permits changing a
protocol's frequency at any time via an update endpoint", so each field
present in a validated body — frequency included — is applied to the stored
record unconditionally. -/
def applyUpdate (p : Protocol) (fields : List (String × Json)) : Protocol :=
  { p with
    name := (match lookupField fields "name" with
      | some (.str s) => s
      | _ => p.name),
    description := (match lookupField fields "description" with
      | some (.str s) => some s
      | _ => p.description),
    frequency := (match lookupField fields "frequency" with
      | some (.str s) => (parseFrequency s).getD p.frequency
      | _ => p.frequency),
    targetCount := (match lookupField fields "targetCount" with
      | some (.num q) => q
      | _ => p.targetCount),
    isActive := (match lookupField fields "isActive" with
      | some (.bool b) => b
      | _ => p.isActive),
    zoneIds := (match lookupField fields "zoneIds" with
      | some (.arr xs) => xs.filterMap (fun v => match v with
          | .str s => some s
          | _ => none)
      | _ => p.zoneIds) }

/-- Modelled from the spec: the PATCH `/:id` update endpoint — request
validation with `updateProtocolSchema`, then the controller applies the body
to the stored protocol. The protocol's existing compliance logs play no part
in the decision. -/
def updateEndpoint (p : Protocol) (logs : List ComplianceLog) (body : Json) :
    Option Protocol :=
  match body with
  | .obj fields =>
    if updateProtocolSchema (.obj fields) then some (applyUpdate p fields) else none
  | _ => none

/-! ### Concrete records used by witnesses and counterexamples -/

def c2Protocol : Protocol :=
  ⟨"7f9c3e52-0b1a-4c2d-9e3f-5a6b7c8d9e0f", "Daily forklift check", none,
    .DAILY, 1, true, []⟩

def c2Log : ComplianceLog :=
  ⟨"0a1b2c3d-4e5f-4a6b-8c7d-9e0f1a2b3c4d", "7f9c3e52-0b1a-4c2d-9e3f-5a6b7c8d9e0f",
    ⟨⟨2026, 10, 11⟩, 0⟩, none, ⟨⟨2026, 10, 11⟩, 3600⟩⟩

def c4Protocol : Protocol :=
  ⟨"1e2d3c4b-5a69-4788-9695-a4b3c2d1e0f9", "Morning PPE inspection", none,
    .DAILY, 1, true, []⟩

def c4Instant : Instant := ⟨⟨2026, 10, 12⟩, 36000000000000⟩

def c4Log : ComplianceLog :=
  ⟨"2f3e4d5c-6b7a-4899-a7b6-c5d4e3f2a1b0", "1e2d3c4b-5a69-4788-9695-a4b3c2d1e0f9",
    ⟨⟨2026, 10, 13⟩, 0⟩, none, ⟨⟨2026, 10, 13⟩, 120⟩⟩

/-! ### The claims -/

/-- C1: contrary to the spec ("targetCount: integer ≥ 1") and to the route's
own OpenAPI annotation (`type: integer`), the body-validation schemas do not
restrict `targetCount` to integers: a creation body with `targetCount = 3/2`
passes `createProtocolSchema`, the matching update body passes
`updateProtocolSchema`, and `3/2` is not an integer. -/
theorem c1_schema_accepts_noninteger_targetCount :
    createProtocolSchema (Json.obj
      [("name", Json.str "Morning PPE Inspection"),
       ("frequency", Json.str "DAILY"),
       ("targetCount", Json.num (mkRat 3 2))]) = true
    ∧ updateProtocolSchema (Json.obj [("targetCount", Json.num (mkRat 3 2))]) = true
    ∧ (mkRat 3 2).isInt = false := by
  refine ⟨by decide, by decide, by decide⟩

/-- C2 counterexample: the update endpoint accepts a frequency-changing body
for a protocol that already has a compliance log: validation passes and the
stored frequency changes from DAILY to WEEKLY with one log present. -/
theorem c2_frequency_mutable_counterexample :
    updateEndpoint c2Protocol [c2Log] (Json.obj [("frequency", Json.str "WEEKLY")])
      = some { c2Protocol with frequency := .WEEKLY }
    ∧ c2Protocol.frequency = .DAILY
    ∧ Frequency.WEEKLY ≠ Frequency.DAILY
    ∧ [c2Log].length = 1 := by
  refine ⟨by decide, by decide, by decide, by decide⟩

/-- C2 amended: the update endpoint applies a validated body's frequency to
the stored protocol regardless of the existing log history — frequency is not
immutable once logs exist. -/
theorem c2_amended_frequency_always_updatable
    (p : Protocol) (logs : List ComplianceLog) (fields : List (String × Json))
    (s : String) (f : Frequency)
    (hlook : lookupField fields "frequency" = some (Json.str s))
    (hparse : parseFrequency s = some f)
    (hvalid : updateProtocolSchema (Json.obj fields) = true) :
    updateEndpoint p logs (Json.obj fields) = some (applyUpdate p fields)
    ∧ (applyUpdate p fields).frequency = f := by
  constructor
  · simp only [updateEndpoint, hvalid, if_true]
  · simp only [applyUpdate, hlook, hparse, Option.getD_some]

theorem c2_amended_witness :
    updateEndpoint c2Protocol [c2Log] (Json.obj [("frequency", Json.str "WEEKLY")])
      = some (applyUpdate c2Protocol [("frequency", Json.str "WEEKLY")])
    ∧ (applyUpdate c2Protocol [("frequency", Json.str "WEEKLY")]).frequency = .WEEKLY :=
  c2_amended_frequency_always_updatable c2Protocol [c2Log]
    [("frequency", Json.str "WEEKLY")] "WEEKLY" .WEEKLY (by rfl) (by rfl) (by decide)

/-- C3: the Log Validator rejects with FUTURE_DATE exactly when the completion
timestamp is strictly after now plus the clock-skew tolerance, for every
tolerance and backfill configuration; and under the defaults (tolerance 0,
unbounded backfill) a completion stamped exactly at now is accepted. -/
theorem c3_future_date_iff (completionDate now tol : Int) (mb : Option Int) :
    (validateLog completionDate now tol mb = .rejected .FUTURE_DATE
      ↔ now + tol < completionDate)
    ∧ validateLog now now 0 none = .ok := by
  constructor
  · simp only [validateLog]
    by_cases hc : now + tol < completionDate
    · simp [hc]
    · simp only [if_neg hc]
      cases mb with
      | none => simp [hc]
      | some b =>
        by_cases h2 : completionDate < now - b
        · simp [h2, hc]
        · simp [h2, hc]
  · simp only [validateLog]
    rw [if_neg (by omega)]

theorem c3_witness :
    validateLog 5 3 0 none = .rejected .FUTURE_DATE
    ∧ validateLog 3 3 0 none = .ok := by
  constructor
  · exact (c3_future_date_iff 5 3 0 none).1.mpr (by omega)
  · exact (c3_future_date_iff 5 3 0 none).2

/-- C4: a log whose completionDate is exactly the current window's end is not
counted toward the current window by the evaluator's counting step; the
window computed at that instant is the immediately following one — it starts
exactly at windowEnd and contains the log's completionDate. -/
theorem c4_boundary_log_next_window (p : Protocol) (h : Nat)
    (logs : List ComplianceLog) (l : ComplianceLog) (t : Instant)
    (ht : ValidInstant t) (hh : h ≤ 23)
    (hl : l.completionDate = (windowFor p.frequency h t).wEnd) :
    countInWindow (l :: logs) (windowFor p.frequency h t)
      = countInWindow logs (windowFor p.frequency h t)
    ∧ (windowFor p.frequency h ((windowFor p.frequency h t).wEnd)).wStart
      = (windowFor p.frequency h t).wEnd
    ∧ inWindow (windowFor p.frequency h ((windowFor p.frequency h t).wEnd))
        l.completionDate := by
  have hval := windowFor_valid p.frequency h t ht hh
  have hnext := windowFor_next_start p.frequency h t ht hh
  have hpos := windowFor_pos p.frequency h ((windowFor p.frequency h t).wEnd) hval.2 hh
  refine ⟨?_, hnext, ?_, ?_⟩
  · have hnot : ¬ inWindow (windowFor p.frequency h t) l.completionDate := by
      intro hin
      have h2 := hin.2
      rw [hl] at h2
      exact instLt_irrefl _ h2
    simp [countInWindow, List.filter_cons, hnot]
  · rw [hl, hnext]
    exact Or.inr rfl
  · rw [hl]
    rw [hnext] at hpos
    exact hpos

theorem c4_witness :
    countInWindow [c4Log] (windowFor c4Protocol.frequency 0 c4Instant)
      = countInWindow [] (windowFor c4Protocol.frequency 0 c4Instant)
    ∧ (windowFor c4Protocol.frequency 0 ((windowFor c4Protocol.frequency 0 c4Instant).wEnd)).wStart
      = (windowFor c4Protocol.frequency 0 c4Instant).wEnd
    ∧ inWindow (windowFor c4Protocol.frequency 0 ((windowFor c4Protocol.frequency 0 c4Instant).wEnd))
        c4Log.completionDate :=
  c4_boundary_log_next_window c4Protocol 0 [] c4Log c4Instant
    (by decide) (by decide) (by decide)

/-- C5: for every frequency and valid reference instant the computed window
has windowEnd strictly after windowStart, and every valid instant lying
inside that window is assigned exactly the same window — so a reference
instant and the last instant of its window agree on the window. -/
theorem c5_window_positive_and_containment (f : Frequency) (h : Nat) (t : Instant)
    (ht : ValidInstant t) (hh : h ≤ 23) :
    instLt (windowFor f h t).wStart (windowFor f h t).wEnd
    ∧ ∀ u : Instant, ValidInstant u →
        instLe (windowFor f h t).wStart u →
        instLt u (windowFor f h t).wEnd →
        windowFor f h u = windowFor f h t :=
  ⟨windowFor_pos f h t ht hh,
    fun u hu h1 h2 => windowFor_containment f h t u ht hu hh h1 h2⟩

theorem c5_witness :
    instLt (windowFor .WEEKLY 0 ⟨⟨2026, 10, 15⟩, 36000000000000⟩).wStart
      (windowFor .WEEKLY 0 ⟨⟨2026, 10, 15⟩, 36000000000000⟩).wEnd
    ∧ windowFor .WEEKLY 0 ⟨⟨2026, 10, 18⟩, 86399999999999⟩
      = windowFor .WEEKLY 0 ⟨⟨2026, 10, 15⟩, 36000000000000⟩ := by
  have hc := c5_window_positive_and_containment .WEEKLY 0
    ⟨⟨2026, 10, 15⟩, 36000000000000⟩ (by decide) (by decide)
  exact ⟨hc.1, hc.2 ⟨⟨2026, 10, 18⟩, 86399999999999⟩ (by decide) (by decide) (by decide)⟩

/-- C6: evaluation is deterministic and mutation-free. A compliance query
returns the store unchanged, and a second identical query run against the
store left behind by the first yields the same compliance state. -/
theorem c6_evaluate_stateless_deterministic (s : EngineStore) (p : Protocol)
    (t : Instant) (h : Nat) :
    (evalQuery s p t h).2 = s
    ∧ (evalQuery (evalQuery s p t h).2 p t h).1 = (evalQuery s p t h).1 :=
  ⟨rfl, rfl⟩

/-- C7: path-parameter ids are UUID-validated, but the `zoneIds` entries of a
protocol creation body are validated only as strings — contrary to the spec
("the HTTP layer is responsible for … UUID format") and to the route's own
OpenAPI annotation (`items: format: uuid`): a body carrying the non-UUID zone
id "not-a-uuid" passes `createProtocolSchema`, while that same string fails
wherever UUID validation is actually applied, and a genuine UUID passes the
params schema. -/
theorem c7_zoneIds_not_uuid_validated :
    createProtocolSchema (Json.obj
      [("name", Json.str "Forklift inspection"),
       ("frequency", Json.str "WEEKLY"),
       ("targetCount", Json.num 2),
       ("zoneIds", Json.arr [Json.str "not-a-uuid"])]) = true
    ∧ isUuid "not-a-uuid" = false
    ∧ protocolParamsSchema (Json.obj [("id", Json.str "not-a-uuid")]) = false
    ∧ hazardZoneParamsSchema (Json.obj [("id", Json.str "not-a-uuid")]) = false
    ∧ protocolParamsSchema (Json.obj
        [("id", Json.str "123e4567-e89b-12d3-a456-426614174000")]) = true := by
  refine ⟨by decide, by decide, by decide, by decide, by decide⟩

/-- C8: a body accepted by `createProtocolSchema` carries a string `name` of
between 3 and 200 characters, and a body whose `name` is a string outside
that range is rejected by the schema before any controller runs. -/
theorem c8_name_length_bounds (fields : List (String × Json)) :
    (createProtocolSchema (Json.obj fields) = true →
      ∃ s : String, lookupField fields "name" = some (Json.str s)
        ∧ 3 ≤ s.length ∧ s.length ≤ 200)
    ∧ ∀ s : String, lookupField fields "name" = some (Json.str s) →
        (s.length < 3 ∨ 200 < s.length) →
        createProtocolSchema (Json.obj fields) = false := by
  constructor
  · intro hacc
    simp only [createProtocolSchema, Bool.and_eq_true] at hacc
    have hname := hacc.1.1.1.1
    cases hcase : lookupField fields "name" with
    | none =>
      rw [reqField, hcase] at hname
      exact absurd hname (by simp)
    | some v =>
      rw [reqField, hcase] at hname
      cases v with
      | str s =>
        refine ⟨s, rfl, ?_, ?_⟩
        · simp only [isStrLen, Bool.and_eq_true, decide_eq_true_eq] at hname
          exact hname.1
        · simp only [isStrLen, Bool.and_eq_true, decide_eq_true_eq] at hname
          exact hname.2
      | null => exact absurd hname (by simp [isStrLen])
      | bool b => exact absurd hname (by simp [isStrLen])
      | num q => exact absurd hname (by simp [isStrLen])
      | arr xs => exact absurd hname (by simp [isStrLen])
      | obj fs => exact absurd hname (by simp [isStrLen])
  · intro s hlook hrange
    have hname : reqField fields "name" (isStrLen 3 200) = false := by
      rw [reqField, hlook]
      simp only [isStrLen, Bool.and_eq_false_iff, decide_eq_false_iff_not]
      omega
    simp [createProtocolSchema, hname]

theorem c8_witness :
    (∃ s : String,
      lookupField [("name", Json.str "abc"), ("frequency", Json.str "DAILY"),
        ("targetCount", Json.num 1)] "name" = some (Json.str s)
      ∧ 3 ≤ s.length ∧ s.length ≤ 200)
    ∧ createProtocolSchema (Json.obj
        [("name", Json.str "ab"), ("frequency", Json.str "DAILY"),
         ("targetCount", Json.num 1)]) = false := by
  constructor
  · exact (c8_name_length_bounds
      [("name", Json.str "abc"), ("frequency", Json.str "DAILY"),
       ("targetCount", Json.num 1)]).1 (by decide)
  · exact (c8_name_length_bounds
      [("name", Json.str "ab"), ("frequency", Json.str "DAILY"),
       ("targetCount", Json.num 1)]).2 "ab" (by rfl) (by decide)

/-- C9: at the compliance-log creation endpoint, a body with completionDate
entirely omitted passes `createComplianceLogSchema` (the empty body passes);
when completionDate is present it must be a string in the zod datetime
format; and a present note must be a string of at most 500 characters. -/
theorem c9_compliance_log_schema (fields : List (String × Json)) :
    createComplianceLogSchema (Json.obj []) = true
    ∧ (∀ v, lookupField fields "completionDate" = some v →
        createComplianceLogSchema (Json.obj fields) = true →
        ∃ s : String, v = Json.str s ∧ isDatetime s = true)
    ∧ (∀ s : String, lookupField fields "note" = some (Json.str s) →
        createComplianceLogSchema (Json.obj fields) = true →
        s.length ≤ 500) := by
  refine ⟨by decide, ?_, ?_⟩
  · intro v hlook hacc
    simp only [createComplianceLogSchema, Bool.and_eq_true] at hacc
    have hcd := hacc.1
    rw [optField, hlook] at hcd
    cases v with
    | str s =>
      refine ⟨s, rfl, ?_⟩
      simpa [isDatetimeJson] using hcd
    | null => exact absurd hcd (by simp [isDatetimeJson])
    | bool b => exact absurd hcd (by simp [isDatetimeJson])
    | num q => exact absurd hcd (by simp [isDatetimeJson])
    | arr xs => exact absurd hcd (by simp [isDatetimeJson])
    | obj fs => exact absurd hcd (by simp [isDatetimeJson])
  · intro s hlook hacc
    simp only [createComplianceLogSchema, Bool.and_eq_true] at hacc
    have hnote := hacc.2
    rw [optField, hlook] at hnote
    simp only [isStrLen, Bool.and_eq_true, decide_eq_true_eq] at hnote
    exact hnote.2

theorem c9_witness :
    createComplianceLogSchema (Json.obj []) = true
    ∧ (∃ s : String, Json.str "2026-01-01T00:00:00Z" = Json.str s
        ∧ isDatetime s = true)
    ∧ "All PPE equipment in good condition".length ≤ 500 := by
  have h := c9_compliance_log_schema
    [("completionDate", Json.str "2026-01-01T00:00:00Z"),
     ("note", Json.str "All PPE equipment in good condition")]
  refine ⟨h.1, ?_, ?_⟩
  · exact h.2.1 (Json.str "2026-01-01T00:00:00Z") (by rfl) (by decide)
  · exact h.2.2 "All PPE equipment in good condition" (by rfl) (by decide)

/-- C10: both routers install `authenticateToken` before every route
registration, so no route handler of either router is reachable on an
unauthenticated request: the pipeline stops at the auth middleware. -/
theorem c10_auth_before_all_routes (i : Nat) (method path : String) :
    (protocolRouterRegs.get? i = some (.route method path) →
      handlerReachable protocolRouterRegs false i = false)
    ∧ (hazardZoneRouterRegs.get? i = some (.route method path) →
      handlerReachable hazardZoneRouterRegs false i = false) := by
  constructor
  · intro hi
    cases i with
    | zero => simp [protocolRouterRegs] at hi
    | succ n =>
      simp [handlerReachable, protocolRouterRegs, middlewarePasses]
  · intro hi
    cases i with
    | zero => simp [hazardZoneRouterRegs] at hi
    | succ n =>
      simp [handlerReachable, hazardZoneRouterRegs, middlewarePasses]

theorem c10_witness :
    handlerReachable protocolRouterRegs false 1 = false
    ∧ handlerReachable hazardZoneRouterRegs false 1 = false := by
  constructor
  · exact (c10_auth_before_all_routes 1 "GET" "/").1 (by decide)
  · exact (c10_auth_before_all_routes 1 "GET" "/").2 (by decide)
